import Mathlib

/-!
# Verification of the `slices` utility package

Shallow embedding of `src/server/util/slices/slices.go` (package `slices`).
Go slices are modelled as Lean `List`s; a freshly copied slice is assumed to
have capacity equal to its length (the Go `copy` helper rebuilds the slice via
`append([]T(nil), slice...)`).  Functions that can panic are modelled with
`Option`, where `none` stands for a run-time fault.  All functions in the
package copy their input (or, for `Shuffle`, explicitly mutate it), so the
pure embedding is faithful: no model function aliases its argument.
-/

namespace Slices

/-- Embeds `Remove` (slices.go lines 9-20): removes the first occurrence of
`item`; the copy made on entry means the caller's slice is untouched, so the
function is pure.  The Go loop `for i, v := range slice { if v == item
{ return append(slice[:i], slice[i+1:]...) } }` is the structural recursion
below: on the first match the element is dropped and the rest kept. -/
def remove {T : Type} [DecidableEq T] : List T → T → List T
  | [], _ => []
  | v :: rest, item => if v = item then rest else v :: remove rest item

/-- Embeds the Go slicing expression `slice[:i]` for an `int` index on a slice
whose capacity equals its length: legal iff `0 ≤ i ≤ len`, otherwise a
run-time fault (`none`). -/
def sliceTo {T : Type} (s : List T) (i : Int) : Option (List T) :=
  if 0 ≤ i ∧ i ≤ s.length then some (s.take i.toNat) else none

/-- Embeds the Go slicing expression `slice[i:]` for an `int` index on a slice
whose capacity equals its length: legal iff `0 ≤ i ≤ len`, otherwise a
run-time fault (`none`). -/
def sliceFrom {T : Type} (s : List T) (i : Int) : Option (List T) :=
  if 0 ≤ i ∧ i ≤ s.length then some (s.drop i.toNat) else none

/-- Embeds `RemoveAt` (slices.go lines 22-27):
`slice = copy(slice); return append(slice[:index], slice[index+1:]...)`.
Either slicing expression may fault; otherwise the two parts are
concatenated. -/
def removeAt {T : Type} (s : List T) (index : Int) : Option (List T) := do
  let front ← sliceTo s index
  let back ← sliceFrom s (index + 1)
  pure (front ++ back)

/-- Embeds `Contains` (slices.go lines 51-60): linear scan for an element
equal to `item`. -/
def contains {T : Type} [DecidableEq T] : List T → T → Bool
  | [], _ => false
  | v :: rest, item => if v = item then true else contains rest item

/-- The loop of `IndexOf` with the running index `i` made explicit (`i` is a
Go `int`). -/
def idxAux {T : Type} [DecidableEq T] (item : T) : Int → List T → Int
  | _, [] => -1
  | i, v :: rest => if v = item then i else idxAux item (i + 1) rest

/-- Embeds `IndexOf` (slices.go lines 62-71): index of the first occurrence,
`-1` when absent. -/
def indexOf {T : Type} [DecidableEq T] (s : List T) (item : T) : Int :=
  idxAux item 0 s

/- ### Helper lemmas about `remove`, `contains`, `idxAux` -/

theorem contains_eq_true_iff_mem {T : Type} [DecidableEq T] (s : List T) (x : T) :
    contains s x = true ↔ x ∈ s := by
  induction s with
  | nil => simp [contains]
  | cons v rest ih =>
    by_cases h : v = x
    · subst h; simp [contains]
    · simp only [contains, if_neg h, ih, List.mem_cons]
      constructor
      · exact Or.inr
      · rintro (hh | hh)
        · exact absurd hh.symm h
        · exact hh

theorem idxAux_eq_neg_one_of_not_mem {T : Type} [DecidableEq T] {s : List T} {x : T}
    (hx : x ∉ s) (k : Int) : idxAux x k s = -1 := by
  induction s generalizing k with
  | nil => rfl
  | cons v rest ih =>
    have hv : v ≠ x := fun h => hx (h ▸ List.mem_cons_self v rest)
    have hrest : x ∉ rest := fun h => hx (List.mem_cons_of_mem v h)
    simp [idxAux, hv, ih hrest]

theorem idxAux_spec_of_mem {T : Type} [DecidableEq T] {s : List T} {x : T}
    (hx : x ∈ s) (k : Int) :
    ∃ n : Nat, idxAux x k s = k + n ∧ s[n]? = some x ∧
      ∀ j < n, s[j]? ≠ some x := by
  induction s generalizing k with
  | nil => exact absurd hx (List.not_mem_nil x)
  | cons v rest ih =>
    by_cases h : v = x
    · exact ⟨0, by simp [idxAux, h]⟩
    · have hxr : x ∈ rest := by
        cases List.mem_cons.mp hx with
        | inl hh => exact absurd hh.symm h
        | inr hh => exact hh
      obtain ⟨n, h1, h2, h3⟩ := ih hxr (k + 1)
      refine ⟨n + 1, ?_, by simpa using h2, ?_⟩
      · simp [idxAux, h, h1]; ring
      · intro j hj
        cases j with
        | zero => simpa using h
        | succ j => simpa using h3 j (by omega)

/-- C10: `Contains(S, x)` is true iff `IndexOf(S, x) ≠ -1`; and whenever
`IndexOf(S, x)` returns some `i ≥ 0`, `S[i] = x` and no element at a smaller
index equals `x`. -/
theorem c10_contains_indexOf {T : Type} [DecidableEq T] (s : List T) (x : T) :
    (contains s x = true ↔ indexOf s x ≠ -1) ∧
    (∀ n : Nat, indexOf s x = n → s[n]? = some x ∧ ∀ j < n, s[j]? ≠ some x) := by
  by_cases hm : x ∈ s
  · obtain ⟨n, h1, h2, h3⟩ := idxAux_spec_of_mem hm 0
    have hidx : indexOf s x = n := by simpa [indexOf] using h1
    constructor
    · rw [contains_eq_true_iff_mem, hidx]
      constructor
      · intro _; omega
      · intro _; exact hm
    · intro m hmap
      have hnm : n = m := by rw [hidx] at hmap; exact_mod_cast hmap
      subst hnm
      exact ⟨h2, h3⟩
  · have hidx : indexOf s x = -1 := idxAux_eq_neg_one_of_not_mem hm 0
    constructor
    · rw [contains_eq_true_iff_mem, hidx]
      constructor
      · intro h; exact absurd h hm
      · intro h; exact absurd rfl h
    · intro m hmap
      rw [hidx] at hmap
      exact absurd hmap (by omega)

/-- Witness for `c10_contains_indexOf` at the concrete input `[5, 7, 5]`,
`x = 7`, whose first occurrence is at index 1. -/
theorem c10_contains_indexOf_witness :
    (contains ([5, 7, 5] : List Int) 7 = true ↔ indexOf ([5, 7, 5] : List Int) 7 ≠ -1) ∧
    (([5, 7, 5] : List Int)[1]? = some 7 ∧ ∀ j < 1, ([5, 7, 5] : List Int)[j]? ≠ some 7) :=
  ⟨(c10_contains_indexOf [5, 7, 5] 7).1,
   (c10_contains_indexOf [5, 7, 5] 7).2 1 (by decide)⟩

/-- C9: `Remove(S, x)` returns a sequence of length `len(S) - 1` equal to `S`
with exactly the first element equal to `x` removed when `x` occurs, and a
copy of `S` when absent.  (The function copies its argument on entry, so the
caller's sequence is never mutated: the embedding is pure.) -/
theorem c9_remove {T : Type} [DecidableEq T] (s : List T) (x : T) :
    (x ∈ s → ∃ i : Nat, s[i]? = some x ∧ (∀ j < i, s[j]? ≠ some x) ∧
      remove s x = s.take i ++ s.drop (i + 1) ∧ (remove s x).length + 1 = s.length)
    ∧ (x ∉ s → remove s x = s) := by
  induction s with
  | nil =>
    refine ⟨fun h => absurd h (List.not_mem_nil x), fun _ => rfl⟩
  | cons v rest ih =>
    constructor
    · intro hmem
      by_cases h : v = x
      · subst h
        exact ⟨0, by simp [remove]⟩
      · have hxr : x ∈ rest := by
          cases List.mem_cons.mp hmem with
          | inl hh => exact absurd hh.symm h
          | inr hh => exact hh
        obtain ⟨i, h1, h2, h3, h4⟩ := ih.1 hxr
        refine ⟨i + 1, by simpa using h1, ?_, ?_, ?_⟩
        · intro j hj
          cases j with
          | zero => simpa using h
          | succ j => simpa using h2 j (by omega)
        · simp [remove, h, h3]
        · simp [remove, h]
          omega
    · intro habs
      have hv : v ≠ x := fun h => habs (h ▸ List.mem_cons_self v rest)
      have hr : x ∉ rest := fun h => habs (List.mem_cons_of_mem v h)
      simp [remove, hv, ih.2 hr]

/-- Witness for `c9_remove` at `[4, 9, 4]`, `x = 4` (present, first
occurrence at index 0) and `x = 3` (absent). -/
theorem c9_remove_witness :
    (∃ i : Nat, ([4, 9, 4] : List Int)[i]? = some 4 ∧
      (∀ j < i, ([4, 9, 4] : List Int)[j]? ≠ some 4) ∧
      remove ([4, 9, 4] : List Int) 4 =
        ([4, 9, 4] : List Int).take i ++ ([4, 9, 4] : List Int).drop (i + 1) ∧
      (remove ([4, 9, 4] : List Int) 4).length + 1 = ([4, 9, 4] : List Int).length)
    ∧ remove ([4, 9, 4] : List Int) 3 = [4, 9, 4] :=
  ⟨(c9_remove [4, 9, 4] 4).1 (by decide), (c9_remove [4, 9, 4] 3).2 (by decide)⟩

/-- C2: `RemoveAt(S, i)` faults iff `i` is outside `[0, len(S))`; in range it
returns `S` with the element at index `i` removed (one element shorter,
indices below `i` unchanged, indices from `i` on shifted down by one).  The
function copies its argument before slicing, so the caller's sequence is
never mutated: the embedding is pure. -/
theorem c2_removeAt {T : Type} (s : List T) (i : Int) :
    (removeAt s i = none ↔ i < 0 ∨ (s.length : Int) ≤ i)
    ∧ (0 ≤ i → i < (s.length : Int) →
        removeAt s i = some (s.take i.toNat ++ s.drop (i.toNat + 1))
        ∧ (s.take i.toNat ++ s.drop (i.toNat + 1)).length + 1 = s.length
        ∧ (∀ j : Nat, j < i.toNat →
            (s.take i.toNat ++ s.drop (i.toNat + 1))[j]? = s[j]?)
        ∧ (∀ j : Nat, i.toNat ≤ j →
            (s.take i.toNat ++ s.drop (i.toNat + 1))[j]? = s[j + 1]?)) := by
  constructor
  · simp only [removeAt, sliceTo, sliceFrom, Option.bind_eq_bind]
    split_ifs with h1 h2 <;> simp <;> omega
  · intro h0 hlen
    have hnat : i.toNat < s.length := by omega
    have hsucc : (i + 1).toNat = i.toNat + 1 := by omega
    refine ⟨?_, ?_, ?_, ?_⟩
    · simp only [removeAt, sliceTo, sliceFrom]
      rw [if_pos ⟨h0, by omega⟩, if_pos ⟨by omega, by omega⟩]
      simp [hsucc]
    · simp only [List.length_append, List.length_take, List.length_drop]
      omega
    · intro j hj
      rw [List.getElem?_append]
      rw [if_pos (by simp [List.length_take]; omega)]
      rw [List.getElem?_take, if_pos hj]
    · intro j hj
      rw [List.getElem?_append]
      rw [if_neg (by simp [List.length_take]; omega)]
      rw [List.getElem?_drop]
      congr 1
      simp [List.length_take]
      omega

/-- Witness for `c2_removeAt` at `[1, 2, 3]` with the in-range index `1` and
(for the fault part, which has no hypothesis) implicitly every index. -/
theorem c2_removeAt_witness :
    removeAt ([1, 2, 3] : List Int) 1 = some [1, 3]
    ∧ removeAt ([1, 2, 3] : List Int) 5 = none :=
  ⟨by
    have h := (c2_removeAt ([1, 2, 3] : List Int) 1).2 (by decide) (by decide)
    simpa using h.1,
   by
    have h := (c2_removeAt ([1, 2, 3] : List Int) 5).1
    exact h.mpr (by decide)⟩

/-- Embeds the parallel assignment `slice[i], slice[j] = slice[j], slice[i]`
of `Shuffle` (slices.go lines 278-284).  In `Shuffle` both indices are always
in bounds (`i < len` and `j ≤ i`); the out-of-bounds branch is a dummy making
the model total and is never reached under the theorem's hypotheses. -/
def swapAt {α : Type} (s : List α) (i j : Nat) : List α :=
  if h : i < s.length ∧ j < s.length then
    (s.set i (s.get ⟨j, h.2⟩)).set j (s.get ⟨i, h.1⟩)
  else s

/-- The loop of `Shuffle`, running `i` from its first argument down to `1`;
`draws i` models the value returned by `rand.Intn(i + 1)` at iteration `i`. -/
def shuffleFrom {α : Type} (draws : Nat → Nat) : Nat → List α → List α
  | 0, s => s
  | i + 1, s => shuffleFrom draws i (swapAt s (i + 1) (draws (i + 1)))

/-- Embeds `Shuffle` (slices.go lines 278-284): Fisher-Yates, `for i :=
len(slice) - 1; i > 0; i--`.  The in-place mutation is modelled by returning
the final value of the sequence. -/
def shuffle {α : Type} (s : List α) (draws : Nat → Nat) : List α :=
  shuffleFrom draws (s.length - 1) s

theorem count_set {α : Type} [DecidableEq α] :
    ∀ (l : List α) (i : Nat) (x c : α) (h : i < l.length),
      (l.set i x).count c + (if l.get ⟨i, h⟩ = c then 1 else 0)
        = l.count c + (if x = c then 1 else 0)
  | v :: rest, 0, x, c, h => by
      have hset : (v :: rest).set 0 x = x :: rest := rfl
      have hget : (v :: rest).get ⟨0, h⟩ = v := rfl
      rw [hset, hget, List.count_cons, List.count_cons]
      simp only [beq_iff_eq]
      omega
  | v :: rest, i + 1, x, c, h => by
      have hi : i < rest.length := Nat.lt_of_succ_lt_succ h
      have ih := count_set rest i x c hi
      have hset : (v :: rest).set (i + 1) x = v :: rest.set i x := rfl
      have hget : (v :: rest).get ⟨i + 1, h⟩ = rest.get ⟨i, hi⟩ := rfl
      rw [hset, hget, List.count_cons, List.count_cons]
      simp only [beq_iff_eq]
      omega

theorem swapAt_perm {α : Type} [DecidableEq α] (s : List α) (i j : Nat) :
    (swapAt s i j).Perm s := by
  unfold swapAt
  split
  case isFalse => exact List.Perm.refl s
  case isTrue h =>
    set a := s.get ⟨i, h.1⟩ with ha
    set b := s.get ⟨j, h.2⟩ with hb
    rw [List.perm_iff_count]
    intro c
    have hjt : j < (s.set i b).length := by simpa using h.2
    have e2 := count_set (s.set i b) j a c hjt
    have e1 := count_set s i b c h.1
    have hgetj : (s.set i b).get ⟨j, hjt⟩ = b := by
      by_cases hij : i = j
      · subst hij
        simp [List.get_eq_getElem]
      · simp [List.get_eq_getElem, List.getElem_set_ne hij, hb]
    rw [hgetj] at e2
    rw [← ha] at e1
    generalize (if a = c then 1 else 0) = A at e1 e2
    generalize (if b = c then 1 else 0) = B at e1 e2
    omega

theorem shuffleFrom_perm {α : Type} (draws : Nat → Nat) :
    ∀ (n : Nat) (s : List α), (shuffleFrom draws n s).Perm s := by
  intro n
  induction n with
  | zero => intro s; exact List.Perm.refl s
  | succ n ih =>
    intro s
    letI := Classical.decEq α
    simp only [shuffleFrom]
    exact (ih _).trans (swapAt_perm s _ _)

/-- C5: `Shuffle` performs, for `i` from the last index down to `1`, the swap
of elements `i` and `j_i` where `j_i = rand.Intn(i+1) ∈ [0, i]` (this is the
definition of `shuffle`), and the resulting sequence is a permutation of the
input: the multiset of elements is unchanged. -/
theorem c5_shuffle {α : Type} (s : List α) (draws : Nat → Nat)
    (hdraws : ∀ i, 1 ≤ i → i ≤ s.length - 1 → draws i ≤ i) :
    (shuffle s draws).Perm s :=
  shuffleFrom_perm draws (s.length - 1) s

/-- Witness for `c5_shuffle` at `[10, 20, 30]` with every draw equal to 0. -/
theorem c5_shuffle_witness :
    (shuffle ([10, 20, 30] : List Int) (fun _ => 0)).Perm [10, 20, 30] :=
  c5_shuffle [10, 20, 30] (fun _ => 0) (fun i _ _ => Nat.zero_le i)

/-- Embeds `IntersperseBy` (slices.go lines 248-258): `result := []T{values[0]};
for i, v := range values[1:] { result = append(result, separatorGenerator(values[i]), v) }`.
Since the loop index `i` runs over `values[1:]`, `values[i]` is the element
immediately preceding `v` in the original slice; the recursion below keeps
that predecessor as the head of the remaining list. -/
def intersperseBy {T : Type} (separatorGenerator : T → T) : List T → List T
  | [] => []
  | [x] => [x]
  | x :: y :: rest => x :: separatorGenerator x :: intersperseBy separatorGenerator (y :: rest)

/-- C7: for non-empty input `[v_0, ..., v_(n-1)]`, `IntersperseBy` returns
`[v_0, f(v_0), v_1, f(v_1), ..., f(v_(n-2)), v_(n-1)]`: every inserted
separator is `f` of the original element immediately before it (expressed via
`zip` of the list with its tail); the empty sequence gives an empty result;
and the documented string example holds. -/
theorem c7_intersperseBy :
    (∀ {T : Type} (f : T → T), intersperseBy f ([] : List T) = []
      ∧ ∀ (v : T) (rest : List T),
          intersperseBy f (v :: rest)
            = v :: ((v :: rest).zip rest).flatMap (fun p => [f p.1, p.2]))
    ∧ intersperseBy (fun s => "after " ++ s) ["first", "second", "third"]
        = ["first", "after first", "second", "after second", "third"] := by
  constructor
  · intro T f
    refine ⟨rfl, ?_⟩
    intro v rest
    induction rest generalizing v with
    | nil => rfl
    | cons y rest ih =>
      calc intersperseBy f (v :: y :: rest)
          = v :: f v :: intersperseBy f (y :: rest) := rfl
        _ = v :: f v :: y :: ((y :: rest).zip rest).flatMap (fun p => [f p.1, p.2]) := by
            rw [ih y]
        _ = v :: ((v :: y :: rest).zip (y :: rest)).flatMap (fun p => [f p.1, p.2]) := rfl
  · rfl

/-- A Go map value, modelled as its lookup function (`nil`-free: `make`
always yields the empty map).  Map equality is pointwise: Go maps carry no
iteration order. -/
def emptyMap {K V : Type} : K → Option V := fun _ => none

/-- Embeds the Go map assignment `result[k] = v`. -/
def mapInsert {K V : Type} [DecidableEq K] (m : K → Option V) (k : K) (v : V) :
    K → Option V :=
  fun q => if q = k then some v else m q

/-- The loop of `Associate` (slices.go lines 198-208): `for i, v := range
keys { if i >= len(values) { break }; result[v] = values[i] }`.  The loop
index grows by one per iteration, so the guard fires exactly when the values
run out; the recursion consumes the two lists in lockstep and stops (without
fault) when either is exhausted. -/
def assocLoop {K V : Type} [DecidableEq K] (m : K → Option V) :
    List K → List V → (K → Option V)
  | [], _ => m
  | _ :: _, [] => m
  | k :: ks, v :: vs => assocLoop (mapInsert m k v) ks vs

/-- Embeds `Associate` (slices.go lines 198-208). -/
def associate {K V : Type} [DecidableEq K] (keys : List K) (values : List V) :
    K → Option V :=
  assocLoop emptyMap keys values

/-- The "last write wins" assignment relation, written from the spec side:
the value paired with the last in-range occurrence of `k` among the keys. -/
def lastAssign {K V : Type} [DecidableEq K] : List K → List V → K → Option V
  | [], _, _ => none
  | _ :: _, [], _ => none
  | k0 :: ks, v0 :: vs, k =>
      match lastAssign ks vs k with
      | some v => some v
      | none => if k0 = k then some v0 else none

theorem assocLoop_eq_lastAssign {K V : Type} [DecidableEq K] :
    ∀ (ks : List K) (vs : List V) (m : K → Option V) (k : K),
      assocLoop m ks vs k
        = match lastAssign ks vs k with
          | some v => some v
          | none => m k
  | [], vs, m, k => by cases vs <;> rfl
  | _ :: _, [], _, _ => rfl
  | k0 :: ks, v0 :: vs, m, k => by
      rw [show assocLoop m (k0 :: ks) (v0 :: vs) = assocLoop (mapInsert m k0 v0) ks vs from rfl]
      rw [assocLoop_eq_lastAssign ks vs (mapInsert m k0 v0) k]
      show _ = (match (match lastAssign ks vs k with
        | some v => some v
        | none => if k0 = k then some v0 else none) with
        | some v => some v
        | none => m k)
      cases hrec : lastAssign ks vs k with
      | some v => rfl
      | none =>
        show mapInsert m k0 v0 k = _
        unfold mapInsert
        by_cases hk : k = k0
        · rw [if_pos hk, if_pos hk.symm]
        · rw [if_neg hk, if_neg (fun h => hk h.symm)]

theorem lastAssign_eq_none {K V : Type} [DecidableEq K] :
    ∀ (ks : List K) (vs : List V) (k : K),
      (∀ j, j < ks.length → j < vs.length → ks[j]? ≠ some k) →
      lastAssign ks vs k = none
  | [], vs, k, _ => by cases vs <;> rfl
  | _ :: _, [], _, _ => rfl
  | k0 :: ks, v0 :: vs, k, h => by
      have hrec : lastAssign ks vs k = none := by
        apply lastAssign_eq_none
        intro j h1 h2
        have := h (j + 1) (by simpa using h1) (by simpa using h2)
        simpa using this
      have hk0 : k0 ≠ k := by
        have := h 0 (by simp) (by simp)
        simpa using this
      unfold lastAssign
      rw [hrec, if_neg hk0]

theorem lastAssign_eq_of_last {K V : Type} [DecidableEq K] :
    ∀ (ks : List K) (vs : List V) (i : Nat) (hik : i < ks.length)
      (hiv : i < vs.length),
      (∀ j, i < j → j < ks.length → j < vs.length → ks[j]? ≠ ks[i]?) →
      lastAssign ks vs (ks.get ⟨i, hik⟩) = some (vs.get ⟨i, hiv⟩)
  | k0 :: ks, v0 :: vs, 0, _, _, h => by
      have hrec : lastAssign ks vs k0 = none := by
        apply lastAssign_eq_none
        intro j h1 h2
        have := h (j + 1) (by omega) (by simpa using h1) (by simpa using h2)
        simpa using this
      show lastAssign (k0 :: ks) (v0 :: vs) k0 = some v0
      unfold lastAssign
      rw [hrec, if_pos rfl]
  | k0 :: ks, v0 :: vs, i + 1, hik, hiv, h => by
      have hik2 : i < ks.length := Nat.lt_of_succ_lt_succ hik
      have hiv2 : i < vs.length := Nat.lt_of_succ_lt_succ hiv
      have hrec := lastAssign_eq_of_last ks vs i hik2 hiv2 (by
        intro j h1 h2 h3
        have := h (j + 1) (by omega) (by simpa using h2) (by simpa using h3)
        simpa using this)
      show lastAssign (k0 :: ks) (v0 :: vs) (ks.get ⟨i, hik2⟩) = some (vs.get ⟨i, hiv2⟩)
      unfold lastAssign
      rw [hrec]

/-- C6: `Associate(K, V)` maps `K[i]` to `V[i]` for every index present in
both sequences, with the last write winning on duplicate keys; keys beyond
`len(V)` are skipped without fault; values beyond `len(K)` are ignored; a key
with no in-range occurrence is absent.  Concretely,
`Associate(["a","b"], [1,2,3]) = {"a": 1, "b": 2}` and
`Associate(["a","a"], [1,2]) = {"a": 2}`. -/
theorem c6_associate :
    (∀ {K V : Type} [DecidableEq K] (keys : List K) (values : List V)
        (i : Nat) (hik : i < keys.length) (hiv : i < values.length),
        (∀ j, i < j → j < keys.length → j < values.length → keys[j]? ≠ keys[i]?) →
        associate keys values (keys.get ⟨i, hik⟩) = some (values.get ⟨i, hiv⟩))
    ∧ (∀ {K V : Type} [DecidableEq K] (keys : List K) (values : List V) (k : K),
        (∀ j, j < keys.length → j < values.length → keys[j]? ≠ some k) →
        associate keys values k = none)
    ∧ associate ["a", "b"] ([1, 2, 3] : List Int) "a" = some 1
    ∧ associate ["a", "b"] ([1, 2, 3] : List Int) "b" = some 2
    ∧ (∀ k, k ≠ "a" → k ≠ "b" → associate ["a", "b"] ([1, 2, 3] : List Int) k = none)
    ∧ associate ["a", "a"] ([1, 2] : List Int) "a" = some 2
    ∧ (∀ k, k ≠ "a" → associate ["a", "a"] ([1, 2] : List Int) k = none) := by
  refine ⟨?_, ?_, by decide, by decide, ?_, by decide, ?_⟩
  · intro K V _ keys values i hik hiv h
    rw [associate, assocLoop_eq_lastAssign, lastAssign_eq_of_last keys values i hik hiv h]
  · intro K V _ keys values k h
    rw [associate, assocLoop_eq_lastAssign, lastAssign_eq_none keys values k h]
    rfl
  · intro k h1 h2
    simp [associate, assocLoop, mapInsert, emptyMap, h1, h2]
  · intro k h1
    simp [associate, assocLoop, mapInsert, emptyMap, h1]

/-- Witness for `c6_associate`: the last-write-wins component applied at
`keys = ["a","a"]`, `values = [1,2]`, `i = 1`. -/
theorem c6_associate_witness :
    associate ["a", "a"] ([1, 2] : List Int) "a" = some 2 :=
  c6_associate.1 ["a", "a"] [1, 2] 1 (by decide) (by decide)
    (fun _ h1 h2 _ => by exfalso; simp only [List.length_cons, List.length_nil] at h2; omega)

/-- The reconstruction loop of `Unique` (`for k := range have { result[have[k]] = k }`):
each processed entry `(k, idx)` writes `k` at position `idx` of the result
array.  The entry list `l` gives the (unspecified) iteration order of the Go
map. -/
def writeFold {T : Type} (l : List (T × Nat)) (init : List T) : List T :=
  l.foldl (fun r e => r.set e.2 e.1) init

theorem length_writeFold {T : Type} :
    ∀ (l : List (T × Nat)) (init : List T), (writeFold l init).length = init.length
  | [], _ => rfl
  | e :: l, init => by
      rw [show writeFold (e :: l) init = writeFold l (init.set e.2 e.1) from rfl,
        length_writeFold l, List.length_set]

theorem writeFold_getElem?_of_not_mem {T : Type} :
    ∀ (l : List (T × Nat)) (init : List T) (p : Nat),
      p ∉ l.map Prod.snd → (writeFold l init)[p]? = init[p]?
  | [], _, _, _ => rfl
  | e :: l, init, p, h => by
      have h1 : e.2 ≠ p := fun hh => h (by simp [hh.symm])
      have h2 : p ∉ l.map Prod.snd := fun hh => h (by simp [hh])
      rw [show writeFold (e :: l) init = writeFold l (init.set e.2 e.1) from rfl,
        writeFold_getElem?_of_not_mem l _ p h2, List.getElem?_set_ne h1]

theorem writeFold_getElem?_of_mem {T : Type} :
    ∀ (l : List (T × Nat)) (init : List T) (k : T) (p : Nat),
      (l.map Prod.snd).Nodup → (k, p) ∈ l → p < init.length →
      (writeFold l init)[p]? = some k
  | e :: l, init, k, p, hnd, hmem, hlen => by
      have hnd2 : (l.map Prod.snd).Nodup := (List.nodup_cons.mp (by simpa using hnd)).2
      have hout : e.2 ∉ l.map Prod.snd := (List.nodup_cons.mp (by simpa using hnd)).1
      rw [show writeFold (e :: l) init = writeFold l (init.set e.2 e.1) from rfl]
      cases List.mem_cons.mp hmem with
      | inl hh =>
        have he2 : e.2 = p := by rw [← hh]
        have he1 : e.1 = k := by rw [← hh]
        subst he2
        rw [writeFold_getElem?_of_not_mem l _ e.2 hout,
          List.getElem?_set_eq (by simpa using hlen), he1]
      | inr hh =>
        exact writeFold_getElem?_of_mem l _ k p hnd2 hh (by simpa using hlen)

/-- The entries of the uniqueness map in insertion order: the distinct values
paired with consecutive first-seen indices starting at `n`. -/
def pairIdx {T : Type} : Nat → List T → List (T × Nat)
  | _, [] => []
  | n, k :: ks => (k, n) :: pairIdx (n + 1) ks

theorem map_snd_pairIdx {T : Type} :
    ∀ (n : Nat) (ks : List T), (pairIdx n ks).map Prod.snd = List.range' n ks.length
  | _, [] => rfl
  | n, k :: ks => by
      rw [show (pairIdx n (k :: ks)).map Prod.snd
          = n :: (pairIdx (n + 1) ks).map Prod.snd from rfl,
        map_snd_pairIdx (n + 1) ks]
      rfl

theorem get_mem_pairIdx {T : Type} :
    ∀ (n : Nat) (ks : List T) (j : Nat) (h : j < ks.length),
      (ks.get ⟨j, h⟩, n + j) ∈ pairIdx n ks
  | n, k :: ks, 0, _ => by simp [pairIdx]
  | n, k :: ks, j + 1, h => by
      have hj : j < ks.length := Nat.lt_of_succ_lt_succ h
      have := get_mem_pairIdx (n + 1) ks j hj
      have harith : n + 1 + j = n + (j + 1) := by omega
      rw [harith] at this
      exact List.mem_cons_of_mem _ this

/-- The first-occurrence subsequence, written from the spec side: keep each
value whose value has not been seen before. -/
def firstOccurAux {T : Type} [DecidableEq T] (seen : List T) : List T → List T
  | [] => []
  | v :: rest =>
      if v ∈ seen then firstOccurAux seen rest
      else v :: firstOccurAux (v :: seen) rest

/-- `firstOccur s`: the distinct values of `s` in order of first appearance. -/
def firstOccur {T : Type} [DecidableEq T] (s : List T) : List T :=
  firstOccurAux [] s

theorem firstOccurAux_congr {T : Type} [DecidableEq T] :
    ∀ (s : List T) (seen1 seen2 : List T), (∀ a, a ∈ seen1 ↔ a ∈ seen2) →
      firstOccurAux seen1 s = firstOccurAux seen2 s
  | [], _, _, _ => rfl
  | v :: rest, seen1, seen2, h => by
      by_cases hv : v ∈ seen1
      · rw [firstOccurAux, firstOccurAux, if_pos hv, if_pos ((h v).mp hv)]
        exact firstOccurAux_congr rest seen1 seen2 h
      · rw [firstOccurAux, firstOccurAux, if_neg hv, if_neg (fun hh => hv ((h v).mpr hh))]
        rw [firstOccurAux_congr rest (v :: seen1) (v :: seen2) (by
          intro a
          simp only [List.mem_cons]
          exact or_congr Iff.rfl (h a))]

theorem mem_firstOccurAux {T : Type} [DecidableEq T] :
    ∀ (s : List T) (seen : List T) (a : T),
      a ∈ firstOccurAux seen s ↔ a ∈ s ∧ a ∉ seen
  | [], seen, a => by simp [firstOccurAux]
  | v :: rest, seen, a => by
      by_cases hv : v ∈ seen
      · rw [firstOccurAux, if_pos hv, mem_firstOccurAux rest seen a]
        constructor
        · exact fun ⟨h1, h2⟩ => ⟨List.mem_cons_of_mem v h1, h2⟩
        · rintro ⟨h1, h2⟩
          refine ⟨?_, h2⟩
          cases List.mem_cons.mp h1 with
          | inl hh => exact absurd (hh ▸ hv) h2
          | inr hh => exact hh
      · rw [firstOccurAux, if_neg hv]
        simp only [List.mem_cons, mem_firstOccurAux rest (v :: seen) a]
        constructor
        · rintro (hh | ⟨h1, h2⟩)
          · subst hh; exact ⟨Or.inl rfl, hv⟩
          · exact ⟨Or.inr h1, fun hh => h2 (Or.inr hh)⟩
        · rintro ⟨hh | h1, h2⟩
          · exact Or.inl hh
          · by_cases hav : a = v
            · exact Or.inl hav
            · exact Or.inr ⟨h1, by simp [List.mem_cons, hav, h2]⟩

theorem nodup_firstOccurAux {T : Type} [DecidableEq T] :
    ∀ (s : List T) (seen : List T), (firstOccurAux seen s).Nodup
  | [], _ => List.nodup_nil
  | v :: rest, seen => by
      by_cases hv : v ∈ seen
      · rw [firstOccurAux, if_pos hv]
        exact nodup_firstOccurAux rest seen
      · rw [firstOccurAux, if_neg hv]
        refine List.nodup_cons.mpr ⟨?_, nodup_firstOccurAux rest (v :: seen)⟩
        intro hmem
        exact ((mem_firstOccurAux rest (v :: seen) v).mp hmem).2 (List.mem_cons_self v seen)

/-- One iteration of the detection loop of `Unique` (slices.go lines 125-139):
`if _, ok := have[v]; !ok { have[v] = i; i++ }`.  The state is the counter `i`
together with the map entries in insertion order; map membership is key
membership in the entry list. -/
def uniqueStep {T : Type} [DecidableEq T] (st : Nat × List (T × Nat)) (v : T) :
    Nat × List (T × Nat) :=
  if v ∈ st.2.map Prod.fst then st else (st.1 + 1, st.2 ++ [(v, st.1)])

/-- The counter and map built by the first loop of `Unique`. -/
def uniqueHave {T : Type} [DecidableEq T] (s : List T) : Nat × List (T × Nat) :=
  s.foldl uniqueStep (0, [])

theorem uniqueHave_build {T : Type} [DecidableEq T] :
    ∀ (s : List T) (e : List (T × Nat)),
      s.foldl uniqueStep (e.length, e)
        = (e.length + (firstOccurAux (e.map Prod.fst) s).length,
           e ++ pairIdx e.length (firstOccurAux (e.map Prod.fst) s))
  | [], e => by simp [firstOccurAux, pairIdx]
  | v :: rest, e => by
      by_cases hv : v ∈ e.map Prod.fst
      · have hstep : uniqueStep (e.length, e) v = (e.length, e) := by
          simp [uniqueStep, hv]
        rw [List.foldl_cons, hstep, uniqueHave_build rest e, firstOccurAux, if_pos hv]
      · have hstep : uniqueStep (e.length, e) v = (e.length + 1, e ++ [(v, e.length)]) := by
          simp [uniqueStep, hv]
        have hlen : (e ++ [(v, e.length)]).length = e.length + 1 := by simp
        have ih := uniqueHave_build rest (e ++ [(v, e.length)])
        rw [hlen] at ih
        rw [List.foldl_cons, hstep, ih]
        have hseen : (e ++ [(v, e.length)]).map Prod.fst = e.map Prod.fst ++ [v] := by simp
        have hcongr : firstOccurAux (e.map Prod.fst ++ [v]) rest
            = firstOccurAux (v :: e.map Prod.fst) rest :=
          firstOccurAux_congr rest _ _ (by
            intro a
            simp only [List.mem_append, List.mem_cons, List.mem_singleton]
            tauto)
        rw [hseen, hcongr,
          show firstOccurAux (e.map Prod.fst) (v :: rest)
            = v :: firstOccurAux (v :: e.map Prod.fst) rest from by
              rw [firstOccurAux, if_neg hv]]
        simp only [pairIdx, List.length_cons, Prod.mk.injEq]
        constructor
        · omega
        · simp

/-- Core of the order-independence argument: writing every entry of any
permutation of `pairIdx 0 ks` into a fresh array of size `ks.length`
reconstructs `ks` exactly, because the indices are pairwise distinct and
cover every position. -/
theorem writeFold_reconstruct {T : Type} [Inhabited T] (ks : List T)
    (l : List (T × Nat)) (hperm : l.Perm (pairIdx 0 ks)) :
    writeFold l (List.replicate ks.length default) = ks := by
  have hnodup : (l.map Prod.snd).Nodup := by
    have h1 : (l.map Prod.snd).Perm ((pairIdx 0 ks).map Prod.snd) :=
      hperm.map Prod.snd
    rw [map_snd_pairIdx] at h1
    exact (List.Perm.nodup_iff h1).mpr (List.nodup_range' 0 ks.length)
  apply List.ext_getElem?
  intro p
  by_cases hp : p < ks.length
  · have hmem : (ks.get ⟨p, hp⟩, p) ∈ l := by
      have h2 := get_mem_pairIdx 0 ks p hp
      rw [Nat.zero_add] at h2
      exact (hperm.mem_iff).mpr h2
    rw [writeFold_getElem?_of_mem l _ _ p hnodup hmem (by simpa using hp),
      List.getElem?_eq_getElem hp]
    simp [List.get_eq_getElem]
  · have h1 : (writeFold l (List.replicate ks.length default)).length ≤ p := by
      rw [length_writeFold, List.length_replicate]
      omega
    rw [List.getElem?_eq_none h1, List.getElem?_eq_none (by omega)]

theorem uniqueHave_eq {T : Type} [DecidableEq T] (s : List T) :
    uniqueHave s = ((firstOccur s).length, pairIdx 0 (firstOccur s)) := by
  have h := uniqueHave_build s []
  simpa [uniqueHave, firstOccur] using h

/-- `result := make([]T, i)` (a sequence of `i` zero values, modelled by
`default`) followed by the reconstruction loop, the map iterated in the order
given by `l`. -/
def uniqueResult {T : Type} [Inhabited T] (count : Nat) (l : List (T × Nat)) : List T :=
  writeFold l (List.replicate count default)

/-- Embeds `Unique` (slices.go lines 125-139), with the map iterated in
insertion order (one of the orders an execution may use). -/
def unique {T : Type} [DecidableEq T] [Inhabited T] (s : List T) : List T :=
  uniqueResult (uniqueHave s).1 (uniqueHave s).2

/-- C3: whatever iteration order `l` the Go map produces (any permutation of
the entries), the reconstruction of `Unique(S)` equals the list of distinct
values of `S` in order of first appearance, which has no duplicates and has
the same members as `S`; in particular `Unique([1,2,2,3,1]) = [1,2,3]`. -/
theorem c3_unique :
    (∀ {T : Type} [DecidableEq T] [Inhabited T] (s : List T) (l : List (T × Nat)),
        l.Perm (uniqueHave s).2 →
          uniqueResult (uniqueHave s).1 l = firstOccur s
          ∧ (firstOccur s).Nodup
          ∧ (∀ a, a ∈ firstOccur s ↔ a ∈ s))
    ∧ unique ([1, 2, 2, 3, 1] : List Int) = [1, 2, 3] := by
  constructor
  · intro T _ _ s l hperm
    refine ⟨?_, nodup_firstOccurAux s [], ?_⟩
    · rw [uniqueHave_eq] at hperm
      rw [uniqueHave_eq]
      exact writeFold_reconstruct (firstOccur s) l hperm
    · intro a
      rw [firstOccur, mem_firstOccurAux]
      simp
  · decide

/-- Witness for `c3_unique` at `S = [1,2,2,3,1]` with the map iterated in the
order `3, 1, 2` (a nontrivial permutation of the insertion order). -/
theorem c3_unique_witness :
    uniqueResult (uniqueHave ([1, 2, 2, 3, 1] : List Int)).1 [(3, 2), (1, 0), (2, 1)]
        = firstOccur ([1, 2, 2, 3, 1] : List Int)
      ∧ (firstOccur ([1, 2, 2, 3, 1] : List Int)).Nodup
      ∧ (∀ a, a ∈ firstOccur ([1, 2, 2, 3, 1] : List Int)
          ↔ a ∈ ([1, 2, 2, 3, 1] : List Int)) :=
  c3_unique.1 [1, 2, 2, 3, 1] [(3, 2), (1, 0), (2, 1)] (by decide)

/-- One iteration of the detection loop of `UniqueBy` (slices.go lines
149-165): `unique := f(v); if _, ok := have[unique]; !ok { have[unique] =
uniquePair{i, v}; i++ }`.  A `uniquePair` is an (index, value) pair; Go
stores the value as `any` and the later assertion `p.value.(T)` always
succeeds because only values of type `T` are inserted, so the model keeps the
value at type `T`. -/
def uniqueByStep {T U : Type} [DecidableEq U] (f : T → U)
    (st : Nat × List (U × (Nat × T))) (v : T) : Nat × List (U × (Nat × T)) :=
  if f v ∈ st.2.map Prod.fst then st else (st.1 + 1, st.2 ++ [(f v, (st.1, v))])

/-- The counter and map built by the first loop of `UniqueBy`. -/
def uniqueByHave {T U : Type} [DecidableEq U] (f : T → U) (s : List T) :
    Nat × List (U × (Nat × T)) :=
  s.foldl (uniqueByStep f) (0, [])

/-- The reconstruction loop of `UniqueBy` (`for _, p := range have {
result[p.index] = p.value }`): it sees only the map's values, i.e. the
(index, value) pairs, in the map's unspecified iteration order `l`. -/
def writeFoldPairs {T : Type} (l : List (Nat × T)) (init : List T) : List T :=
  l.foldl (fun r p => r.set p.1 p.2) init

/-- `result := make([]T, i)` followed by the `UniqueBy` reconstruction loop. -/
def uniqueByResult {T : Type} [Inhabited T] (count : Nat) (l : List (Nat × T)) :
    List T :=
  writeFoldPairs l (List.replicate count default)

/-- Embeds `UniqueBy` (slices.go lines 149-165), with the map iterated in
insertion order (one of the orders an execution may use). -/
def uniqueBy {T U : Type} [DecidableEq U] [Inhabited T] (s : List T) (f : T → U) :
    List T :=
  uniqueByResult (uniqueByHave f s).1 ((uniqueByHave f s).2.map Prod.snd)

/-- The elements whose key under `f` has not been seen before, written from
the spec side. -/
def firstOccurByAux {T U : Type} [DecidableEq U] (f : T → U) (seen : List U) :
    List T → List T
  | [] => []
  | v :: rest =>
      if f v ∈ seen then firstOccurByAux f seen rest
      else v :: firstOccurByAux f (f v :: seen) rest

/-- `firstOccurBy f s`: the first element of `s` for each distinct key
`f x`, in order of first appearance of the keys. -/
def firstOccurBy {T U : Type} [DecidableEq U] (f : T → U) (s : List T) : List T :=
  firstOccurByAux f [] s

/-- The map entries of `UniqueBy` in insertion order. -/
def pairIdxBy {T U : Type} (f : T → U) : Nat → List T → List (U × (Nat × T))
  | _, [] => []
  | n, v :: vs => (f v, (n, v)) :: pairIdxBy f (n + 1) vs

theorem writeFoldPairs_eq {T : Type} :
    ∀ (l : List (Nat × T)) (init : List T),
      writeFoldPairs l init = writeFold (l.map (fun p => (p.2, p.1))) init
  | [], _ => rfl
  | p :: l, init => by
      rw [show writeFoldPairs (p :: l) init = writeFoldPairs l (init.set p.1 p.2) from rfl,
        writeFoldPairs_eq l]
      rfl

theorem map_snd_swap_pairIdxBy {T U : Type} (f : T → U) :
    ∀ (n : Nat) (vs : List T),
      ((pairIdxBy f n vs).map Prod.snd).map (fun p => (p.2, p.1)) = pairIdx n vs
  | _, [] => rfl
  | n, v :: vs => by
      rw [show ((pairIdxBy f n (v :: vs)).map Prod.snd).map (fun p => (p.2, p.1))
          = (v, n) :: ((pairIdxBy f (n + 1) vs).map Prod.snd).map (fun p => (p.2, p.1))
          from rfl,
        map_snd_swap_pairIdxBy f (n + 1) vs]
      rfl

theorem firstOccurByAux_congr {T U : Type} [DecidableEq U] (f : T → U) :
    ∀ (s : List T) (seen1 seen2 : List U), (∀ a, a ∈ seen1 ↔ a ∈ seen2) →
      firstOccurByAux f seen1 s = firstOccurByAux f seen2 s
  | [], _, _, _ => rfl
  | v :: rest, seen1, seen2, h => by
      by_cases hv : f v ∈ seen1
      · rw [firstOccurByAux, firstOccurByAux, if_pos hv, if_pos ((h (f v)).mp hv)]
        exact firstOccurByAux_congr f rest seen1 seen2 h
      · rw [firstOccurByAux, firstOccurByAux, if_neg hv,
          if_neg (fun hh => hv ((h (f v)).mpr hh))]
        rw [firstOccurByAux_congr f rest (f v :: seen1) (f v :: seen2) (by
          intro a
          simp only [List.mem_cons]
          exact or_congr Iff.rfl (h a))]

theorem uniqueByHave_build {T U : Type} [DecidableEq U] (f : T → U) :
    ∀ (s : List T) (e : List (U × (Nat × T))),
      s.foldl (uniqueByStep f) (e.length, e)
        = (e.length + (firstOccurByAux f (e.map Prod.fst) s).length,
           e ++ pairIdxBy f e.length (firstOccurByAux f (e.map Prod.fst) s))
  | [], e => by simp [firstOccurByAux, pairIdxBy]
  | v :: rest, e => by
      by_cases hv : f v ∈ e.map Prod.fst
      · have hstep : uniqueByStep f (e.length, e) v = (e.length, e) := by
          simp [uniqueByStep, hv]
        rw [List.foldl_cons, hstep, uniqueByHave_build f rest e, firstOccurByAux, if_pos hv]
      · have hstep : uniqueByStep f (e.length, e) v
            = (e.length + 1, e ++ [(f v, (e.length, v))]) := by
          simp [uniqueByStep, hv]
        have hlen : (e ++ [(f v, (e.length, v))]).length = e.length + 1 := by simp
        have ih := uniqueByHave_build f rest (e ++ [(f v, (e.length, v))])
        rw [hlen] at ih
        rw [List.foldl_cons, hstep, ih]
        have hseen : (e ++ [(f v, (e.length, v))]).map Prod.fst
            = e.map Prod.fst ++ [f v] := by simp
        have hcongr : firstOccurByAux f (e.map Prod.fst ++ [f v]) rest
            = firstOccurByAux f (f v :: e.map Prod.fst) rest :=
          firstOccurByAux_congr f rest _ _ (by
            intro a
            simp only [List.mem_append, List.mem_cons, List.mem_singleton]
            tauto)
        rw [hseen, hcongr,
          show firstOccurByAux f (e.map Prod.fst) (v :: rest)
            = v :: firstOccurByAux f (f v :: e.map Prod.fst) rest from by
              rw [firstOccurByAux, if_neg hv]]
        simp only [pairIdxBy, List.length_cons, Prod.mk.injEq]
        constructor
        · omega
        · simp

theorem uniqueByHave_eq {T U : Type} [DecidableEq U] (f : T → U) (s : List T) :
    uniqueByHave f s
      = ((firstOccurBy f s).length, pairIdxBy f 0 (firstOccurBy f s)) := by
  have h := uniqueByHave_build f s []
  simpa [uniqueByHave, firstOccurBy] using h

theorem mem_map_firstOccurByAux {T U : Type} [DecidableEq U] (f : T → U) :
    ∀ (s : List T) (seen : List U) (b : U),
      b ∈ (firstOccurByAux f seen s).map f ↔ b ∈ s.map f ∧ b ∉ seen
  | [], seen, b => by simp [firstOccurByAux]
  | v :: rest, seen, b => by
      by_cases hv : f v ∈ seen
      · rw [firstOccurByAux, if_pos hv, mem_map_firstOccurByAux f rest seen b]
        simp only [List.map_cons, List.mem_cons]
        constructor
        · exact fun ⟨h1, h2⟩ => ⟨Or.inr h1, h2⟩
        · rintro ⟨hh | h1, h2⟩
          · exact absurd (hh ▸ hv) h2
          · exact ⟨h1, h2⟩
      · rw [firstOccurByAux, if_neg hv]
        simp only [List.map_cons, List.mem_cons,
          mem_map_firstOccurByAux f rest (f v :: seen) b]
        constructor
        · rintro (hh | ⟨h1, h2⟩)
          · subst hh; exact ⟨Or.inl rfl, hv⟩
          · exact ⟨Or.inr h1, fun hh => h2 (Or.inr hh)⟩
        · rintro ⟨hh | h1, h2⟩
          · exact Or.inl hh
          · by_cases hbv : b = f v
            · exact Or.inl hbv
            · refine Or.inr ⟨h1, ?_⟩
              rintro (hx | hx)
              · exact hbv hx
              · exact h2 hx

theorem sub_firstOccurByAux {T U : Type} [DecidableEq U] (f : T → U) :
    ∀ (s : List T) (seen : List U) (a : T), a ∈ firstOccurByAux f seen s → a ∈ s
  | [], _, _, h => by simpa [firstOccurByAux] using h
  | v :: rest, seen, a, h => by
      by_cases hv : f v ∈ seen
      · rw [firstOccurByAux, if_pos hv] at h
        exact List.mem_cons_of_mem v (sub_firstOccurByAux f rest seen a h)
      · rw [firstOccurByAux, if_neg hv] at h
        cases List.mem_cons.mp h with
        | inl hh => exact hh ▸ List.mem_cons_self v rest
        | inr hh => exact List.mem_cons_of_mem v (sub_firstOccurByAux f rest _ a hh)

theorem nodup_map_firstOccurByAux {T U : Type} [DecidableEq U] (f : T → U) :
    ∀ (s : List T) (seen : List U), ((firstOccurByAux f seen s).map f).Nodup
  | [], _ => List.nodup_nil
  | v :: rest, seen => by
      by_cases hv : f v ∈ seen
      · rw [firstOccurByAux, if_pos hv]
        exact nodup_map_firstOccurByAux f rest seen
      · rw [firstOccurByAux, if_neg hv]
        rw [List.map_cons]
        refine List.nodup_cons.mpr ⟨?_, nodup_map_firstOccurByAux f rest (f v :: seen)⟩
        intro hmem
        exact ((mem_map_firstOccurByAux f rest (f v :: seen) (f v)).mp hmem).2
          (List.mem_cons_self (f v) seen)

/-- C4: whatever iteration order `l` the Go map produces for the (index,
value) pairs, the reconstruction of `UniqueBy(S, f)` equals the list of first
elements of `S` per distinct key `f x`, in order of the keys' first
appearance: the kept keys are pairwise distinct, every kept element comes
from `S`, and the kept keys are exactly the keys of `S`; in particular
`UniqueBy([4,1,7,2], x ↦ x mod 3) = [4, 2]`. -/
theorem c4_uniqueBy :
    (∀ {T U : Type} [DecidableEq U] [Inhabited T] (f : T → U) (s : List T)
        (l : List (Nat × T)),
        l.Perm ((uniqueByHave f s).2.map Prod.snd) →
          uniqueByResult (uniqueByHave f s).1 l = firstOccurBy f s
          ∧ ((firstOccurBy f s).map f).Nodup
          ∧ (∀ a, a ∈ firstOccurBy f s → a ∈ s)
          ∧ (∀ b, b ∈ s.map f ↔ b ∈ (firstOccurBy f s).map f))
    ∧ uniqueBy ([4, 1, 7, 2] : List Nat) (fun n => n % 3) = [4, 2] := by
  constructor
  · intro T U _ _ f s l hperm
    refine ⟨?_, nodup_map_firstOccurByAux f s [],
      fun a => sub_firstOccurByAux f s [] a, ?_⟩
    · rw [uniqueByHave_eq] at hperm
      rw [uniqueByHave_eq]
      rw [show uniqueByResult (firstOccurBy f s).length l
          = writeFold (l.map (fun p => (p.2, p.1)))
              (List.replicate (firstOccurBy f s).length default)
          from writeFoldPairs_eq l _]
      apply writeFold_reconstruct
      have h1 := hperm.map (fun p : Nat × T => (p.2, p.1))
      rw [map_snd_swap_pairIdxBy f 0 (firstOccurBy f s)] at h1
      exact h1
    · intro b
      rw [firstOccurBy, mem_map_firstOccurByAux f s [] b]
      simp
  · decide

/-- Witness for `c4_uniqueBy` at `S = [4,1,7,2]`, `f = (· mod 3)` (keys
`1,1,1,2`), with the map's two entries iterated in reversed order. -/
theorem c4_uniqueBy_witness :
    uniqueByResult (uniqueByHave (fun n => n % 3) ([4, 1, 7, 2] : List Nat)).1
        [(1, 2), (0, 4)]
        = firstOccurBy (fun n => n % 3) ([4, 1, 7, 2] : List Nat)
      ∧ ((firstOccurBy (fun n => n % 3) ([4, 1, 7, 2] : List Nat)).map
          (fun n => n % 3)).Nodup
      ∧ (∀ a, a ∈ firstOccurBy (fun n => n % 3) ([4, 1, 7, 2] : List Nat)
          → a ∈ ([4, 1, 7, 2] : List Nat))
      ∧ (∀ b, b ∈ ([4, 1, 7, 2] : List Nat).map (fun n => n % 3)
          ↔ b ∈ (firstOccurBy (fun n => n % 3) ([4, 1, 7, 2] : List Nat)).map
              (fun n => n % 3)) :=
  c4_uniqueBy.1 (fun n => n % 3) [4, 1, 7, 2] [(1, 2), (0, 4)] (by decide)

/-- An integer instantiation of the Go `numeric` bound (slices.go lines
73-75): a bit width and a signedness.  The admitted integer types are
`int`/`int64 = ⟨64, true⟩`, `int8 = ⟨8, true⟩`, `int16 = ⟨16, true⟩`,
`int32 = ⟨32, true⟩`, `uint`/`uint64 = ⟨64, false⟩`, `uint8 = ⟨8, false⟩`,
`uint16 = ⟨16, false⟩`, `uint32 = ⟨32, false⟩` (`int`/`uint` are 64-bit on
the targets this code runs on). -/
structure GoIntType where
  bits : Nat
  signed : Bool

/-- The Go `int` type (64-bit, signed). -/
def goInt : GoIntType := ⟨64, true⟩

/-- Reduction of an integer into the representable range of `t`: the meaning
of Go's conversion `T(x)` and of arithmetic wrap-around (two's complement
when signed, modular when unsigned). -/
def wrapI (t : GoIntType) (x : Int) : Int :=
  if t.signed then (x + 2 ^ (t.bits - 1)) % 2 ^ t.bits - 2 ^ (t.bits - 1)
  else x % 2 ^ t.bits

/-- Embeds `Sum` (slices.go lines 107-115) at the integer instantiation `t`:
`var sum T; for _, v := range slice { sum += v }`, with Go's wrap-around
addition. -/
def sumI (t : GoIntType) (s : List Int) : Int :=
  s.foldl (fun a v => wrapI t (a + v)) 0

/-- Go integer division at instantiation `t`: truncated toward zero; division
by zero is a run-time panic (`none`); the quotient is reduced into range
(Go wraps `MinInt / -1` instead of faulting). -/
def goDivI (t : GoIntType) (x y : Int) : Option Int :=
  if y = 0 then none else some (wrapI t (x.tdiv y))

/-- Embeds `Average` (slices.go lines 117-121) at the integer instantiation
`t`: `return Sum(slice) / T(len(slice))`. -/
def averageI (t : GoIntType) (s : List Int) : Option Int :=
  goDivI t (sumI t s) (wrapI t (s.length : Int))

/-- An IEEE-754 floating-point value, for the `float32`/`float64`
instantiations of the numeric bound: finite values are kept exactly as
rationals (rounding is not modelled; the theorems below evaluate float
arithmetic only where it is exact, e.g. on the empty sequence), plus the two
infinities and NaN. -/
inductive GoFloat : Type
  | finite (q : Rat)
  | inf (negative : Bool)
  | nan
deriving DecidableEq

/-- IEEE addition on the modelled values (exact on finite values). -/
def goFloatAdd : GoFloat → GoFloat → GoFloat
  | GoFloat.nan, _ => GoFloat.nan
  | _, GoFloat.nan => GoFloat.nan
  | GoFloat.inf s1, GoFloat.inf s2 => if s1 = s2 then GoFloat.inf s1 else GoFloat.nan
  | GoFloat.inf s1, GoFloat.finite _ => GoFloat.inf s1
  | GoFloat.finite _, GoFloat.inf s2 => GoFloat.inf s2
  | GoFloat.finite a, GoFloat.finite b => GoFloat.finite (a + b)

/-- IEEE division.  Total — Go floating-point division never panics (Go
specification, Arithmetic operators): `0/0` and `Inf/Inf` give NaN, `x/0`
gives a signed infinity for finite `x ≠ 0`. -/
def goFloatDiv : GoFloat → GoFloat → GoFloat
  | GoFloat.nan, _ => GoFloat.nan
  | _, GoFloat.nan => GoFloat.nan
  | GoFloat.inf _, GoFloat.inf _ => GoFloat.nan
  | GoFloat.inf s1, GoFloat.finite b => GoFloat.inf (s1 != decide (b < 0))
  | GoFloat.finite _, GoFloat.inf _ => GoFloat.finite 0
  | GoFloat.finite a, GoFloat.finite b =>
      if b = 0 then
        if a = 0 then GoFloat.nan else GoFloat.inf (decide (a < 0))
      else GoFloat.finite (a / b)

/-- Embeds `Sum` (slices.go lines 107-115) at a float instantiation:
`var sum T` starts at `+0.0`. -/
def sumFloat (s : List GoFloat) : GoFloat :=
  s.foldl goFloatAdd (GoFloat.finite 0)

/-- The conversion `T(n)` of a sequence length to float (lengths of real Go
slices are exactly representable in float64 up to `2^53`; only small, exact
values are used below). -/
def goFloatOfNat (n : Nat) : GoFloat := GoFloat.finite (n : Rat)

/-- Embeds `Average` (slices.go lines 117-121) at a float instantiation:
`return Sum(slice) / T(len(slice))`.  Total: no execution path of float
division panics. -/
def averageFloat (s : List GoFloat) : GoFloat :=
  goFloatDiv (sumFloat s) (goFloatOfNat s.length)

/-- C1 counterexample: at the `float64` instantiation of the numeric bound
(admitted by it) and the concrete input `[]`, `Average` does not fault: the
division `0.0 / 0.0` evaluates to NaN and `averageFloat` returns that value —
refuting "fails with a division-by-zero fault ... for every type T admitted
by the numeric bound". -/
theorem c1_average_float_counterexample : averageFloat [] = GoFloat.nan := by
  decide

theorem wrapI_zero (t : GoIntType) (ht : 0 < t.bits) : wrapI t 0 = 0 := by
  unfold wrapI
  by_cases hs : t.signed
  · rw [if_pos hs]
    have hb1 : t.bits - 1 + 1 = t.bits := by omega
    have hhalf : (2 : Int) ^ (t.bits - 1) * 2 = 2 ^ t.bits := by
      rw [← pow_succ, hb1]
    have hpos : (0 : Int) < 2 ^ (t.bits - 1) := pow_pos (by norm_num) _
    rw [Int.zero_add, Int.emod_eq_of_lt (by omega) (by omega)]
    omega
  · rw [if_neg hs]
    exact Int.zero_emod _

/-- C1 (amended): `Average` applied to the empty sequence faults with a
division by zero at every *integer* instantiation of the numeric bound
(`Sum([]) = 0` is divided by `T(0) = 0`), while at the float instantiations
(`float32`, `float64`) it does not fault and returns NaN. -/
theorem c1_average_empty :
    (∀ t : GoIntType, 0 < t.bits → averageI t [] = none)
    ∧ averageFloat [] = GoFloat.nan := by
  constructor
  · intro t ht
    have h0 : wrapI t ((([] : List Int).length : Int)) = 0 := wrapI_zero t ht
    rw [averageI, h0, goDivI, if_pos rfl]
  · decide

/-- Witness for `c1_average_empty` at the Go `int` instantiation. -/
theorem c1_average_empty_witness :
    averageI goInt [] = none ∧ averageFloat [] = GoFloat.nan :=
  ⟨c1_average_empty.1 goInt (by decide), c1_average_empty.2⟩

theorem wrapI_ne_zero (t : GoIntType) (n : Int) (h0 : 0 < n)
    (hlt : n < 2 ^ t.bits) : wrapI t n ≠ 0 := by
  unfold wrapI
  by_cases hs : t.signed
  · rw [if_pos hs]
    rcases Nat.eq_zero_or_pos t.bits with hb | hb
    · rw [hb] at hlt
      simp at hlt
      omega
    · have hb1 : t.bits - 1 + 1 = t.bits := by omega
      have hhalf : (2 : Int) ^ (t.bits - 1) * 2 = 2 ^ t.bits := by
        rw [← pow_succ, hb1]
      have hpos : (0 : Int) < 2 ^ (t.bits - 1) := pow_pos (by norm_num) _
      by_cases hcase : n < 2 ^ (t.bits - 1)
      · rw [Int.emod_eq_of_lt (by omega) (by omega)]
        omega
      · have e1 : n + 2 ^ (t.bits - 1) = (n - 2 ^ (t.bits - 1)) + 2 ^ t.bits * 1 := by
          omega
        rw [e1, Int.add_mul_emod_self_left,
          Int.emod_eq_of_lt (by omega) (by omega)]
        omega
  · rw [if_neg hs]
    rw [Int.emod_eq_of_lt (by omega) hlt]
    omega

/-- C8: at every integer instantiation `t` of the numeric bound, for every
non-empty sequence whose length is representable in `t`, `Average` is the
truncating division of `Sum` by the length, computed with `t`'s wrap-around
arithmetic; in particular, at `int`, `Average([1,2,3]) = 2`. -/
theorem c8_average :
    (∀ (t : GoIntType) (s : List Int), 0 < s.length →
        (s.length : Int) < 2 ^ t.bits →
        averageI t s = some (wrapI t ((sumI t s).tdiv (wrapI t (s.length : Int)))))
    ∧ averageI goInt [1, 2, 3] = some 2 := by
  constructor
  · intro t s hpos hlen
    have hne : wrapI t (s.length : Int) ≠ 0 :=
      wrapI_ne_zero t _ (by exact_mod_cast hpos) hlen
    rw [averageI, goDivI, if_neg hne]
  · decide

/-- Witness for `c8_average` at `t = int`, `S = [1, 2, 3]`. -/
theorem c8_average_witness :
    averageI goInt [1, 2, 3]
      = some (wrapI goInt ((sumI goInt [1, 2, 3]).tdiv
          (wrapI goInt (([1, 2, 3] : List Int).length : Int)))) :=
  c8_average.1 goInt [1, 2, 3] (by decide)
    (by rw [show goInt.bits = 64 from rfl]; norm_num)

end Slices
